import Mathlib

/-!
Verification of the column-role detection, aggregation, trend estimation and
indicator logic of the Streamlit teaching dashboards (StudentsMain.py,
students.py, Students_1.py, trial.py, Stock.py), via a shallow embedding of
the relevant functions.  Numeric cell values are embedded as rationals;
missing values (NaN in the pandas frames) are embedded as `Option.none`.
All embedded functions are total, matching the fact that the modelled code
paths return normally on the inputs the claims range over.
-/

/-- Lowercasing of a column name, embedding the Python `c.lower()` calls
(ASCII data in all modelled tables). -/
def strLower (s : String) : String := ⟨s.data.map Char.toLower⟩

/-- One column of an uploaded frame as the schema detector sees it: its name
and whether pandas assigned it a numeric dtype (`select_dtypes(["number"])`). -/
structure ColInfo where
  name : String
  numeric : Bool
deriving DecidableEq, Repr

/-- The reserved column names of StudentsMain.py (`RESERVED_COLS`), compared
case-sensitively by `c not in RESERVED_COLS`. -/
def RESERVED_COLS : List String :=
  ["StudentID", "Name", "Student", "Batch", "Class", "Year", "Gender"]

/-- Embedding of the dict comprehension `cols = {c.lower(): c for c in df.columns}`
looked up at `key`: on duplicate lowercased names the last assignment wins. -/
def lowerLookup (cols : List ColInfo) (key : String) : Option String :=
  (cols.reverse.find? (fun c => strLower c.name == key)).map (fun c => c.name)

/-- Embedding of `next((cols[k] for k in cands if k in cols), None)`. -/
def firstMatch (cols : List ColInfo) (cands : List String) : Option String :=
  cands.findSome? (lowerLookup cols)

/-- Result tuple of `detect_columns`. -/
structure DetectResult where
  nameCol : Option String
  yearCol : Option String
  genderCol : Option String
  subjectCols : List String
deriving DecidableEq, Repr

/-- Embedding of `detect_columns` (StudentsMain.py): case-insensitive candidate
matching for the name, year and gender roles, and the numeric columns whose
exact names are outside `RESERVED_COLS` as subject columns. -/
def detect_columns (cols : List ColInfo) : DetectResult :=
  { nameCol := firstMatch cols ["name", "student", "student_name"]
    yearCol := firstMatch cols ["year", "class_year", "grade_year"]
    genderCol := firstMatch cols ["gender", "sex"]
    subjectCols :=
      (cols.filter (fun c => c.numeric && !(RESERVED_COLS.contains c.name))).map
        (fun c => c.name) }

/-- C1 counterexample: on a table with a single numeric column named `year`
(lower case), `detect_columns` returns it both as the year column and as a
subject column, so the role assignment is not disjoint. -/
theorem detect_columns_case_cex :
    (detect_columns [⟨"year", true⟩]).yearCol = some ("year") ∧
      "year" ∈ (detect_columns [⟨"year", true⟩]).subjectCols := by
  constructor
  · rfl
  · decide

/-- C1 amended: the subject-column list of `detect_columns` never contains a
column whose exact name is in the reserved set; in particular a detected
name, year or gender column bearing one of the exactly reserved names
(such as `Year` or `Name`) is never also a subject column.  Disjointness can
fail only for names that differ from the reserved names in letter case. -/
theorem detect_columns_reserved_not_subject (cols : List ColInfo) (c : String)
    (hrole : (detect_columns cols).nameCol = some c ∨
      (detect_columns cols).yearCol = some c ∨
      (detect_columns cols).genderCol = some c)
    (hres : c ∈ RESERVED_COLS) :
    c ∉ (detect_columns cols).subjectCols := by
  intro hmem
  simp only [detect_columns, List.mem_map, List.mem_filter] at hmem
  obtain ⟨col, ⟨_, hkeep⟩, hname⟩ := hmem
  rw [Bool.and_eq_true, Bool.not_eq_true'] at hkeep
  rw [hname, List.contains_eq_any_beq] at hkeep
  have : RESERVED_COLS.any (c == ·) = true := by
    rw [List.any_eq_true]
    exact ⟨c, hres, by simp⟩
  rw [this] at hkeep
  exact absurd hkeep.2 (by simp)

/-- Witness for the C1 amended theorem on a concrete table with exactly
reserved column names: the numeric `Year` column is detected as the year
role and is excluded from the subject columns. -/
theorem detect_columns_reserved_not_subject_w :
    "Year" ∉ (detect_columns [⟨"Name", false⟩, ⟨"Year", true⟩, ⟨"Math", true⟩]).subjectCols :=
  detect_columns_reserved_not_subject
    [⟨"Name", false⟩, ⟨"Year", true⟩, ⟨"Math", true⟩] "Year"
    (Or.inr (Or.inl (by decide))) (by decide)

/-- Trend classification labels; the source strings carry a decorative arrow
(for example the string for the flat case), abstracted here as an enum as in
the spec data model. -/
inductive TrendLabel
  | growing
  | falling
  | flat
deriving DecidableEq, Repr

/-- Default relative tolerance of numpy isclose / allclose. -/
def np_rtol : ℚ := 1 / 100000

/-- Default absolute tolerance of numpy isclose / allclose. -/
def np_atol : ℚ := 1 / 100000000

/-- Embedding of numpy isclose on possibly-missing values with
`equal_nan=False`: a missing value is close to nothing. -/
def isCloseO : Option ℚ → Option ℚ → Bool
  | some a, some b => decide (|a - b| ≤ np_atol + np_rtol * |b|)
  | _, _ => false

/-- Embedding of `np.allclose(y, y[0], equal_nan=False)` as used in
`compute_trend_line`; on the empty list the comparison is vacuously true
(that case is unreachable in the guarded branch). -/
def allcloseFirst : List (Option ℚ) → Bool
  | [] => true
  | y0 :: ys => (y0 :: ys).all (fun y => isCloseO y y0)

/-- The (x, y) pairs surviving the mask `~np.isnan(x) & ~np.isnan(y)`. -/
def validPairs (xs ys : List (Option ℚ)) : List (ℚ × ℚ) :=
  (xs.zip ys).filterMap (fun p =>
    match p with
    | (some a, some b) => some (a, b)
    | _ => none)

/-- Least-squares slope of a degree-1 fit, the exact value `np.polyfit` is
computing (in floating point) on the masked pairs.  When the x values of the
pairs have zero variance the denominator is zero and the rational division
convention yields 0, whereas numpy would return a minimum-norm solution with
a rank warning; no claim depends on that degenerate fit. -/
def lsSlope (ps : List (ℚ × ℚ)) : ℚ :=
  ((ps.length : ℚ) * (ps.map (fun p => p.1 * p.2)).sum -
      (ps.map (fun p => p.1)).sum * (ps.map (fun p => p.2)).sum) /
    ((ps.length : ℚ) * (ps.map (fun p => p.1 * p.1)).sum -
      (ps.map (fun p => p.1)).sum * (ps.map (fun p => p.1)).sum)

/-- Least-squares intercept of the same degree-1 fit. -/
def lsIntercept (ps : List (ℚ × ℚ)) : ℚ :=
  ((ps.map (fun p => p.2)).sum - lsSlope ps * (ps.map (fun p => p.1)).sum) /
    (ps.length : ℚ)

/-- The slope classification at the end of `compute_trend_line`. -/
def classifySlope (slope tol : ℚ) : TrendLabel :=
  if slope > tol then TrendLabel.growing
  else if slope < -tol then TrendLabel.falling
  else TrendLabel.flat

/-- Embedding of `compute_trend_line` (students.py): guard for short or
allclose-constant series, mask out missing pairs, guard again, then fit and
classify.  Returns (fitted values at the original x positions, slope, label);
the fitted value is missing exactly where x is missing. -/
def compute_trend_line (xs ys : List (Option ℚ)) (tol : ℚ := 5 / 100) :
    List (Option ℚ) × ℚ × TrendLabel :=
  if xs.length < 2 ∨ allcloseFirst ys = true then
    (List.replicate ys.length none, 0, TrendLabel.flat)
  else if (validPairs xs ys).length < 2 then
    (List.replicate ys.length none, 0, TrendLabel.flat)
  else
    (xs.map (Option.map (fun a =>
        lsSlope (validPairs xs ys) * a + lsIntercept (validPairs xs ys))),
      lsSlope (validPairs xs ys),
      classifySlope (lsSlope (validPairs xs ys)) tol)

/-- A series all of whose entries equal one present value passes the numpy
allclose test against its first entry. -/
theorem allcloseFirst_of_const {ys : List (Option ℚ)} {v : ℚ}
    (h : ∀ y ∈ ys, y = some v) : allcloseFirst ys = true := by
  cases ys with
  | nil => rfl
  | cons y0 ys =>
    have hy0 : y0 = some v := h y0 (by simp)
    rw [allcloseFirst, List.all_eq_true]
    intro y hy
    rw [h y hy, hy0]
    simp only [isCloseO, decide_eq_true_eq, sub_self, abs_zero]
    have h1 : (0:ℚ) ≤ np_atol := by norm_num [np_atol]
    have h2 : (0:ℚ) ≤ np_rtol * |v| :=
      mul_nonneg (by norm_num [np_rtol]) (abs_nonneg v)
    linarith

/-- C2: on a degenerate series — fewer than two pairs surviving the missing
mask, or all y entries equal to one present value — `compute_trend_line`
returns slope 0, an all-missing fitted array of the input length, and the
flat label, for every tolerance; the embedding is total, mirroring that the
source raises no exception on these inputs. -/
theorem compute_trend_line_degenerate_flat (xs ys : List (Option ℚ)) (tol : ℚ)
    (hlen : xs.length = ys.length)
    (hdeg : (validPairs xs ys).length < 2 ∨ ∃ v : ℚ, ∀ y ∈ ys, y = some v) :
    compute_trend_line xs ys tol =
      (List.replicate ys.length none, 0, TrendLabel.flat) := by
  unfold compute_trend_line
  split_ifs with h1 h2
  · rfl
  · rfl
  · exfalso
    rcases hdeg with hv | ⟨v, hall⟩
    · exact h2 hv
    · exact h1 (Or.inr (allcloseFirst_of_const hall))

/-- Witness for C2: the constant series y = 50,50,50,50 over x = 2000..2003
yields slope 0, all-missing fit of length 4, and the flat label. -/
theorem compute_trend_line_degenerate_flat_w :
    compute_trend_line [some 2000, some 2001, some 2002, some 2003]
        [some 50, some 50, some 50, some 50] =
      (List.replicate 4 none, 0, TrendLabel.flat) :=
  compute_trend_line_degenerate_flat _ _ _ rfl
    (Or.inr ⟨50, by intro y hy; fin_cases hy <;> rfl⟩)

/-- The classification step is a strict trichotomy in the slope for any
nonnegative tolerance, with both boundary values labelled flat. -/
theorem classifySlope_iff (s tol : ℚ) (htol : 0 ≤ tol) :
    (classifySlope s tol = TrendLabel.growing ↔ tol < s) ∧
      (classifySlope s tol = TrendLabel.falling ↔ s < -tol) ∧
      (classifySlope s tol = TrendLabel.flat ↔ ¬ tol < s ∧ ¬ s < -tol) := by
  unfold classifySlope
  split_ifs with hg hf
  · exact ⟨⟨fun _ => hg, fun _ => rfl⟩,
      ⟨fun h => h.elim, fun h => by linarith⟩,
      ⟨fun h => h.elim, fun h => h.1 hg⟩⟩
  · exact ⟨⟨fun h => h.elim, fun h => hg h⟩,
      ⟨fun _ => hf, fun _ => rfl⟩,
      ⟨fun h => h.elim, fun h => h.2 hf⟩⟩
  · exact ⟨⟨fun h => h.elim, fun h => hg h⟩,
      ⟨fun h => h.elim, fun h => hf h⟩,
      ⟨fun _ => ⟨hg, hf⟩, fun _ => rfl⟩⟩

/-- For a nonnegative tolerance the returned label always equals the
classification of the returned slope, in every branch of
`compute_trend_line` (the degenerate branches return slope 0, which a
nonnegative tolerance classifies as flat). -/
theorem compute_trend_line_label_eq (xs ys : List (Option ℚ)) (tol : ℚ)
    (htol : 0 ≤ tol) :
    (compute_trend_line xs ys tol).2.2 =
      classifySlope (compute_trend_line xs ys tol).2.1 tol := by
  unfold compute_trend_line
  split_ifs with h1 h2
  · show TrendLabel.flat = classifySlope 0 tol
    unfold classifySlope
    rw [if_neg (not_lt.mpr htol), if_neg (not_lt.mpr (neg_nonpos.mpr htol))]
  · show TrendLabel.flat = classifySlope 0 tol
    unfold classifySlope
    rw [if_neg (not_lt.mpr htol), if_neg (not_lt.mpr (neg_nonpos.mpr htol))]
  · rfl

/-- C3: for any series and any nonnegative tolerance (the spec calls the
tolerance a magnitude), the returned label is a strict trichotomy in the
returned slope — growing iff slope exceeds the tolerance, falling iff the
slope is below its negation, flat otherwise including both boundaries — and
the default tolerance is 5/100. -/
theorem compute_trend_line_trichotomy (xs ys : List (Option ℚ)) (tol : ℚ)
    (htol : 0 ≤ tol) (hvalid : 2 ≤ (validPairs xs ys).length)
    (hnc : ¬ ∃ v : ℚ, ∀ y ∈ ys, y = some v) :
    (((compute_trend_line xs ys tol).2.2 = TrendLabel.growing ↔
        tol < (compute_trend_line xs ys tol).2.1) ∧
      ((compute_trend_line xs ys tol).2.2 = TrendLabel.falling ↔
        (compute_trend_line xs ys tol).2.1 < -tol) ∧
      ((compute_trend_line xs ys tol).2.2 = TrendLabel.flat ↔
        ¬ tol < (compute_trend_line xs ys tol).2.1 ∧
          ¬ (compute_trend_line xs ys tol).2.1 < -tol)) ∧
    compute_trend_line xs ys = compute_trend_line xs ys (5 / 100) := by
  refine ⟨?_, rfl⟩
  rw [compute_trend_line_label_eq xs ys tol htol]
  exact classifySlope_iff _ tol htol

/-- The x series 2000..2003 of the spec examples. -/
def exXs : List (Option ℚ) := [some 2000, some 2001, some 2002, some 2003]

/-- The strictly growing y series 40,50,60,70 of the spec examples. -/
def exYsUp : List (Option ℚ) := [some 40, some 50, some 60, some 70]

/-- The numpy allclose test rejects the series 40,50,60,70 against its
first entry. -/
theorem allcloseFirst_exYsUp : allcloseFirst exYsUp = false := by
  have hic : isCloseO (some 50) (some 40) = false := by
    simp only [isCloseO, decide_eq_false_iff_not, not_le]
    rw [show |(50:ℚ) - 40| = 10 by norm_num, show |(40:ℚ)| = 40 by norm_num]
    norm_num [np_atol, np_rtol]
  rw [show allcloseFirst exYsUp = (isCloseO (some 40) (some 40) &&
      (isCloseO (some 50) (some 40) && (isCloseO (some 60) (some 40) &&
      (isCloseO (some 70) (some 40) && true)))) from rfl, hic]
  simp

/-- The masked pairs of the example series. -/
theorem validPairs_ex :
    validPairs exXs exYsUp = [(2000, 40), (2001, 50), (2002, 60), (2003, 70)] := rfl

/-- The exact least-squares slope of the example series is 10. -/
theorem lsSlope_ex :
    lsSlope [((2000:ℚ), (40:ℚ)), (2001, 50), (2002, 60), (2003, 70)] = 10 := by
  norm_num [lsSlope]

/-- C8: on x = 2000..2003, y = 40,50,60,70 with the default tolerance,
`compute_trend_line` returns slope exactly 10 (the least-squares slope of
this series, computed here in exact arithmetic) and the growing label. -/
theorem compute_trend_line_growing_example :
    (compute_trend_line exXs exYsUp).2.1 = 10 ∧
      (compute_trend_line exXs exYsUp).2.2 = TrendLabel.growing := by
  have h1 : ¬ (exXs.length < 2 ∨ allcloseFirst exYsUp = true) := by
    rw [not_or, allcloseFirst_exYsUp]
    exact ⟨by norm_num [exXs], by simp⟩
  have h2 : ¬ (validPairs exXs exYsUp).length < 2 := by
    rw [validPairs_ex]
    norm_num
  unfold compute_trend_line
  rw [if_neg h1, if_neg h2]
  constructor
  · show lsSlope (validPairs exXs exYsUp) = 10
    rw [validPairs_ex, lsSlope_ex]
  · show classifySlope (lsSlope (validPairs exXs exYsUp)) (5 / 100) = TrendLabel.growing
    rw [validPairs_ex, lsSlope_ex]
    unfold classifySlope
    rw [if_pos (by norm_num)]

/-- Witness for C3 on the example series with the default tolerance written
out: the growing component of the trichotomy at a concrete input. -/
theorem compute_trend_line_trichotomy_w :
    (compute_trend_line exXs exYsUp (5 / 100)).2.2 = TrendLabel.growing ↔
      5 / 100 < (compute_trend_line exXs exYsUp (5 / 100)).2.1 :=
  (compute_trend_line_trichotomy exXs exYsUp (5 / 100) (by norm_num)
    (by rw [validPairs_ex]; norm_num)
    (by
      rintro ⟨v, h⟩
      have h1 : some (40:ℚ) = some v := h _ (by simp [exYsUp])
      have h2 : some (50:ℚ) = some v := h _ (by simp [exYsUp])
      rw [Option.some_inj] at h1 h2
      exact absurd (h1.trans h2.symm) (by norm_num))).1.1

/-- One row of the student table as the year-grouped views see it (after the
year column has been coerced to plain integers): the year key, the student
name, and the value of the selected measure column, missing where that cell
is NaN.  Quantifying over tables of such rows covers every choice of measure
column. -/
structure SRow where
  year : ℤ
  name : String
  score : Option ℚ
deriving DecidableEq, Repr

/-- The rows of the groupby group of key k, in source order (pandas keeps
the original row order inside each group). -/
def groupRows (rows : List SRow) (k : ℤ) : List SRow :=
  rows.filter (fun r => r.year == k)

/-- One step of the running (sum, count) accumulation over present values
behind the pandas groupby mean, which skips missing values. -/
def gmStep (k : ℤ) (acc : ℚ × ℕ) (r : SRow) : ℚ × ℕ :=
  if r.year == k then
    match r.score with
    | some v => (acc.1 + v, acc.2 + 1)
    | none => acc
  else acc

/-- Single-pass sum and count of the present measure values of group k. -/
def groupSumCount (rows : List SRow) (k : ℤ) : ℚ × ℕ :=
  rows.foldl (gmStep k) (0, 0)

/-- Embedding of the per-key value of `df.groupby(year_col)[subject].mean()`
(Subjects view of StudentsMain.py): accumulated sum of the present values of
the group divided by their count. -/
def groupbyMeanAt (rows : List SRow) (k : ℤ) : ℚ :=
  (groupSumCount rows k).1 / ((groupSumCount rows k).2 : ℚ)

/-- Arithmetic mean of a list of rationals. -/
def meanQ (l : List ℚ) : ℚ := l.sum / (l.length : ℚ)

/-- The accumulating fold equals, from any starting pair, the declarative
sum and count over the filtered group. -/
theorem groupSumCount_fold (k : ℤ) :
    ∀ (rows : List SRow) (s : ℚ) (n : ℕ),
      rows.foldl (gmStep k) (s, n) =
        (s + ((rows.filter (fun r => r.year == k)).filterMap (fun r => r.score)).sum,
          n + ((rows.filter (fun r => r.year == k)).filterMap (fun r => r.score)).length) := by
  intro rows
  induction rows with
  | nil => intro s n; simp
  | cons r rows ih =>
    intro s n
    rw [List.foldl_cons]
    by_cases hy : r.year = k
    · have hfil : (r :: rows).filter (fun r => r.year == k) =
          r :: rows.filter (fun r => r.year == k) := by
        simp [List.filter_cons, hy]
      cases hsc : r.score with
      | some v =>
        have hstep : gmStep k (s, n) r = (s + v, n + 1) := by
          simp [gmStep, hy, hsc]
        rw [hstep, ih (s + v) (n + 1), hfil, List.filterMap_cons]
        simp only [hsc, List.sum_cons, List.length_cons, Prod.mk.injEq]
        exact ⟨by ring, by omega⟩
      | none =>
        have hstep : gmStep k (s, n) r = (s, n) := by
          simp [gmStep, hy, hsc]
        rw [hstep, ih s n, hfil, List.filterMap_cons]
        simp only [hsc]
    · have hstep : gmStep k (s, n) r = (s, n) := by
        simp [gmStep, hy]
      rw [hstep, ih s n]
      have hfil : (r :: rows).filter (fun r => r.year == k) =
          rows.filter (fun r => r.year == k) := by
        simp [List.filter_cons, hy]
      rw [hfil]

/-- C6: the mean reducer output of the aggregator for key k equals the
arithmetic mean of the values of the measure column over the rows whose
grouping column equals k, missing values being skipped (as the pandas
groupby mean does). -/
theorem groupby_mean_eq_arith_mean (rows : List SRow) (k : ℤ) :
    groupbyMeanAt rows k =
      meanQ ((rows.filter (fun r => r.year == k)).filterMap (fun r => r.score)) := by
  unfold groupbyMeanAt groupSumCount meanQ
  rw [groupSumCount_fold k rows 0 0]
  simp

/-- Every element of the start-and-list is bounded by the running maximum. -/
theorem le_foldl_max :
    ∀ (vs : List ℚ) (v x : ℚ), x ∈ v :: vs → x ≤ vs.foldl max v := by
  intro vs
  induction vs with
  | nil =>
    intro v x hx
    rw [List.mem_singleton] at hx
    exact le_of_eq hx
  | cons w vs ih =>
    intro v x hx
    rw [List.foldl_cons]
    rcases List.mem_cons.mp hx with hxv | hx2
    · exact le_trans (le_of_eq hxv) (le_trans (le_max_left v w) (ih (max v w) _ (by simp)))
    · rcases List.mem_cons.mp hx2 with hxw | hx3
      · exact le_trans (le_of_eq hxw) (le_trans (le_max_right v w) (ih (max v w) _ (by simp)))
      · exact ih (max v w) x (List.mem_cons_of_mem _ hx3)

/-- The running maximum is one of the values it ranges over. -/
theorem foldl_max_mem : ∀ (vs : List ℚ) (v : ℚ), vs.foldl max v ∈ v :: vs := by
  intro vs
  induction vs with
  | nil => intro v; simp
  | cons w vs ih =>
    intro v
    rw [List.foldl_cons]
    rcases List.mem_cons.mp (ih (max v w)) with hm | hm
    · rcases max_choice v w with hc | hc
      · rw [hm, hc]; simp
      · rw [hm, hc]; simp
    · exact List.mem_cons_of_mem _ (List.mem_cons_of_mem _ hm)

/-- Embedding of the maximum of the measure column of a group, the value
that `idxmax` locates; missing when the group has no present value (where
pandas idxmax would raise, a case outside every claim). -/
def maxScore (g : List SRow) : Option ℚ :=
  match g.filterMap (fun r => r.score) with
  | [] => none
  | v :: vs => some (vs.foldl max v)

/-- Embedding of `pick_top` (topper_by_year in StudentsMain.py): locate with
`idxmax` the first row of the group attaining the maximum of the measure
column, and return its name together with that value. -/
def pickTop (g : List SRow) : Option (String × ℚ) :=
  match maxScore g with
  | none => none
  | some m => (g.find? (fun r => r.score == some m)).map (fun r => (r.name, m))

/-- The groupby keys: distinct years in ascending order (pandas groupby
sorts its keys; the function also sorts its output by year afterwards). -/
def yearsOf (rows : List SRow) : List ℤ :=
  List.insertionSort (fun a b => a ≤ b) ((rows.map (fun r => r.year)).dedup)

/-- Embedding of `topper_by_year`: for each group key in ascending order,
the name and score produced by `pick_top` on that group. -/
def topper_by_year (rows : List SRow) : List (ℤ × Option (String × ℚ)) :=
  (yearsOf rows).map (fun k => (k, pickTop (groupRows rows k)))

/-- If a bound value is attained, the group maximum is exactly that value. -/
theorem maxScore_eq_of_bound (g : List SRow) (m : ℚ)
    (hmem : m ∈ g.filterMap (fun r => r.score))
    (hbd : ∀ x ∈ g.filterMap (fun r => r.score), x ≤ m) :
    maxScore g = some m := by
  unfold maxScore
  cases hl : g.filterMap (fun r => r.score) with
  | nil => rw [hl] at hmem; cases hmem
  | cons v vs =>
    rw [hl] at hmem hbd
    have h1 : vs.foldl max v ≤ m := hbd _ (foldl_max_mem vs v)
    have h2 : m ≤ vs.foldl max v := le_foldl_max vs v m hmem
    show some (vs.foldl max v) = some m
    rw [le_antisymm h1 h2]

/-- find? returns the first index at which the predicate holds: it succeeds
at some index no later than any index where the predicate is known to hold,
the predicate holds there, and fails strictly earlier. -/
theorem find_first_index {α : Type} (p : α → Bool) :
    ∀ (l : List α) (j : ℕ) (hj : j < l.length), p (l.get ⟨j, hj⟩) = true →
      ∃ i, ∃ hi : i < l.length, i ≤ j ∧ l.find? p = some (l.get ⟨i, hi⟩) ∧
        p (l.get ⟨i, hi⟩) = true ∧
        ∀ i2 (hi2 : i2 < i), p (l.get ⟨i2, by omega⟩) = false := by
  intro l
  induction l with
  | nil => intro j hj; exact absurd hj (Nat.not_lt_zero j)
  | cons a l ih =>
    intro j hj hp
    by_cases hpa : p a = true
    · refine ⟨0, by omega, by omega, ?_, hpa, ?_⟩
      · rw [List.find?_cons_of_pos _ hpa]
        rfl
      · intro i2 hi2
        exact absurd hi2 (Nat.not_lt_zero i2)
    · cases j with
      | zero => exact absurd hp hpa
      | succ j =>
        obtain ⟨i, hi, hij, hfind, hpi, hmin⟩ :=
          ih j (by simpa using hj) hp
        refine ⟨i + 1, by omega, by omega, ?_, hpi, ?_⟩
        · rw [List.find?_cons_of_neg _ hpa, hfind]
          rfl
        · intro i2 hi2
          cases i2 with
          | zero => simpa using hpa
          | succ i2 => exact hmin i2 (by omega)

/-- C7: on any table whose group for key k has a tie - two row positions
i < j in the group both carrying the maximum value m of the measure column -
the arg-max reducer returns the first-occurring row attaining m, paired with
m itself, and that pair together with the key appears in the
`topper_by_year` output. -/
theorem topper_tie_first_occurrence (rows : List SRow) (k : ℤ) (m : ℚ)
    (i j : ℕ) (hij : i < j) (hi : i < (groupRows rows k).length)
    (hj : j < (groupRows rows k).length)
    (hvi : ((groupRows rows k).get ⟨i, hi⟩).score = some m)
    (hvj : ((groupRows rows k).get ⟨j, hj⟩).score = some m)
    (hbd : ∀ r ∈ groupRows rows k, ∀ v : ℚ, r.score = some v → v ≤ m) :
    ∃ i0, ∃ hi0 : i0 < (groupRows rows k).length, i0 ≤ i ∧
      pickTop (groupRows rows k) =
        some (((groupRows rows k).get ⟨i0, hi0⟩).name, m) ∧
      ((groupRows rows k).get ⟨i0, hi0⟩).score = some m ∧
      (∀ i2 (hi2 : i2 < i0), ((groupRows rows k).get ⟨i2, by omega⟩).score ≠ some m) ∧
      (k, pickTop (groupRows rows k)) ∈ topper_by_year rows := by
  have hmem : m ∈ (groupRows rows k).filterMap (fun r => r.score) :=
    List.mem_filterMap.mpr ⟨_, List.get_mem _ _ _, hvi⟩
  have hbd2 : ∀ x ∈ (groupRows rows k).filterMap (fun r => r.score), x ≤ m := by
    intro x hx
    obtain ⟨r, hr, hrx⟩ := List.mem_filterMap.mp hx
    exact hbd r hr x hrx
  have hmax : maxScore (groupRows rows k) = some m :=
    maxScore_eq_of_bound _ m hmem hbd2
  have hp : (fun r => r.score == some m) ((groupRows rows k).get ⟨i, hi⟩) = true := by
    show (((groupRows rows k).get ⟨i, hi⟩).score == some m) = true
    rw [hvi]
    simp
  obtain ⟨i0, hi0, hii, hfind, hpi0, hmin⟩ :=
    find_first_index (fun r => r.score == some m) (groupRows rows k) i hi hp
  refine ⟨i0, hi0, hii, ?_, ?_, ?_, ?_⟩
  · unfold pickTop
    rw [hmax]
    show ((groupRows rows k).find? (fun r => r.score == some m)).map
        (fun r => (r.name, m)) =
      some (((groupRows rows k).get ⟨i0, hi0⟩).name, m)
    rw [hfind]
    rfl
  · simpa using hpi0
  · intro i2 hi2
    have := hmin i2 hi2
    simpa using this
  · have hg : (groupRows rows k).get ⟨i, hi⟩ ∈ groupRows rows k := List.get_mem _ _ _
    have hrrows := List.mem_filter.mp hg
    have hky : ((groupRows rows k).get ⟨i, hi⟩).year = k := by
      have := hrrows.2
      simpa using this
    have hkmem : k ∈ (rows.map (fun r => r.year)).dedup := by
      rw [List.mem_dedup]
      exact List.mem_map.mpr ⟨_, hrrows.1, hky⟩
    have hky2 : k ∈ yearsOf rows :=
      ((List.perm_insertionSort (fun a b => a ≤ b) _).mem_iff).mpr hkmem
    exact List.mem_map.mpr ⟨k, hky2, rfl⟩

/-- A concrete tied table: Ann and Bob both score the year-2000 maximum 90,
Ann first in source order. -/
def tieRows : List SRow :=
  [⟨2000, "Ann", some 90⟩, ⟨2000, "Bob", some 90⟩, ⟨2001, "Cid", some 80⟩]

/-- Witness for C7: on the tied table the reducer picks the first-occurring
maximal row of year 2000, pairing the key with that name and the maximum. -/
theorem topper_tie_first_occurrence_w :
    ∃ i0, ∃ hi0 : i0 < (groupRows tieRows 2000).length, i0 ≤ 0 ∧
      pickTop (groupRows tieRows 2000) =
        some (((groupRows tieRows 2000).get ⟨i0, hi0⟩).name, 90) ∧
      ((groupRows tieRows 2000).get ⟨i0, hi0⟩).score = some 90 ∧
      (∀ i2 (hi2 : i2 < i0), ((groupRows tieRows 2000).get ⟨i2, by omega⟩).score ≠ some 90) ∧
      (2000, pickTop (groupRows tieRows 2000)) ∈ topper_by_year tieRows :=
  topper_tie_first_occurrence tieRows 2000 90 0 1 (by norm_num)
    (by decide) (by decide) (by decide) (by decide)
    (by
      intro r hr v hv
      fin_cases hr <;> (injection hv with hv; subst hv; norm_num))

/-- One row of the uploaded student table before year coercion: the year
cell as the numeric parse of `pd.to_numeric(errors="coerce")` produces it
(missing where the original cell fails to parse), the name cell, and the
values of the detected subject columns in order (missing where NaN). -/
structure StudRow where
  year : Option ℤ
  name : String
  subs : List (Option ℚ)
deriving DecidableEq, Repr

/-- Embedding of the year-coercion step of StudentsMain.py: coercing the
year column and then dropping its missing entries keeps exactly the rows
whose year parsed; the final `astype(int)` leaves the parsed integer values
unchanged. -/
def yearCoerce (rows : List StudRow) : List StudRow :=
  rows.filter (fun r => r.year.isSome)

/-- Embedding of `overall_percentage` and of the per-row mean inside
`compute_yearly_percentage`: mean over the present subject values of the
row (`skipna=True` semantics), missing when no subject value is present. -/
def overallPct (subs : List (Option ℚ)) : Option ℚ :=
  match subs.filterMap id with
  | [] => none
  | v :: vs => some ((v :: vs).sum / (((v :: vs).length : ℚ)))

/-- Embedding of `compute_yearly_percentage` (students.py) and of the
`_OverallPct` assignment (StudentsMain.py): every row is kept unchanged and
paired with its derived overall-percentage value. -/
def compute_yearly_percentage (rows : List StudRow) : List (StudRow × Option ℚ) :=
  rows.map (fun r => (r, overallPct r.subs))

/-- A table with one unparseable year cell and one parseable one. -/
def badYearRows : List StudRow :=
  [⟨none, "Ann", [some 50]⟩, ⟨some 2000, "Bob", [some 60]⟩]

/-- C5 counterexample: the year-coercion step of the pipeline removes the
row with the unparseable year, so the pipeline does not preserve the rows
of the source table. -/
theorem year_coercion_drops_rows_cex :
    (yearCoerce badYearRows).length ≠ badYearRows.length := by
  decide

/-- C5 amended: year coercion keeps every row exactly when all year cells
parse (in general it keeps exactly the parsing rows), and the derived
overall-percentage step is pure - it removes no row, rewrites no existing
column, and only pairs each row with its derived value, the skip-missing
mean of the measure columns of that row. -/
theorem pipeline_frame_amended (rows : List StudRow) :
    ((∀ r ∈ rows, r.year.isSome) → yearCoerce rows = rows) ∧
      (compute_yearly_percentage rows).map Prod.fst = rows ∧
      ∀ p ∈ compute_yearly_percentage rows, p.2 = overallPct p.1.subs := by
  refine ⟨?_, ?_, ?_⟩
  · intro h
    unfold yearCoerce
    rw [List.filter_eq_self]
    exact h
  · unfold compute_yearly_percentage
    rw [List.map_map]
    exact List.map_id _
  · intro p hp
    obtain ⟨r, hr, hpr⟩ := List.mem_map.mp hp
    rw [← hpr]

/-- A table whose year cells all parse. -/
def goodYearRows : List StudRow :=
  [⟨some 2000, "Ann", [some 40, none]⟩, ⟨some 2001, "Bob", [some 60, some 80]⟩]

/-- Witness for the C5 amended theorem on a concrete fully-parsing table:
coercion keeps all rows and the derived-column step preserves the table. -/
theorem pipeline_frame_amended_w :
    yearCoerce goodYearRows = goodYearRows ∧
      (compute_yearly_percentage goodYearRows).map Prod.fst = goodYearRows :=
  ⟨(pipeline_frame_amended goodYearRows).1 (by decide),
    (pipeline_frame_amended goodYearRows).2.1⟩

/-- Running maximum with accumulator, the tail of the pandas `cummax`. -/
def cummaxAux (m : ℚ) : List ℚ → List ℚ
  | [] => []
  | c :: cs => max m c :: cummaxAux (max m c) cs

/-- Embedding of the CumMax column of `add_indicators` (Stock.py):
running maximum of the Close series (every value present, per the claim). -/
def cummax : List ℚ → List ℚ
  | [] => []
  | c :: cs => c :: cummaxAux c cs

/-- Embedding of the Drawdown column of `add_indicators`:
(Close - CumMax) / CumMax at every row. -/
def drawdown (cs : List ℚ) : List ℚ :=
  (cs.zip (cummax cs)).map (fun p => (p.1 - p.2) / p.2)

/-- The accumulator form of the running maximum preserves length. -/
theorem cummaxAux_length : ∀ (cs : List ℚ) (m : ℚ), (cummaxAux m cs).length = cs.length := by
  intro cs
  induction cs with
  | nil => intro m; rfl
  | cons c cs ih => intro m; simp [cummaxAux, ih]

/-- The running maximum preserves length. -/
theorem cummax_length : ∀ cs : List ℚ, (cummax cs).length = cs.length := by
  intro cs
  cases cs with
  | nil => rfl
  | cons c cs => simp [cummax, cummaxAux_length]

/-- The drawdown column has one entry per Close entry. -/
theorem drawdown_length (cs : List ℚ) : (drawdown cs).length = cs.length := by
  simp [drawdown, cummax_length]

/-- Each entry of the accumulated running maximum dominates the entry of
the base series at the same position. -/
theorem cummaxAux_getD_ge :
    ∀ (cs : List ℚ) (m : ℚ) (i : ℕ), i < cs.length →
      cs.getD i 0 ≤ (cummaxAux m cs).getD i 0 := by
  intro cs
  induction cs with
  | nil => intro m i hi; exact absurd hi (Nat.not_lt_zero i)
  | cons c cs ih =>
    intro m i hi
    cases i with
    | zero => exact le_max_right m c
    | succ i => exact ih (max m c) i (by simpa using hi)

/-- Each entry of the running maximum dominates the Close entry at the
same position. -/
theorem cummax_getD_ge (cs : List ℚ) (i : ℕ) (hi : i < cs.length) :
    cs.getD i 0 ≤ (cummax cs).getD i 0 := by
  cases cs with
  | nil => exact absurd hi (Nat.not_lt_zero i)
  | cons c cs =>
    cases i with
    | zero => exact le_refl c
    | succ i => exact cummaxAux_getD_ge cs c i (by simpa using hi)

/-- Pointwise formula for the drawdown entries. -/
theorem drawdown_getD (cs : List ℚ) (i : ℕ) (hi : i < cs.length) :
    (drawdown cs).getD i 0 =
      (cs.getD i 0 - (cummax cs).getD i 0) / (cummax cs).getD i 0 := by
  have h1 : i < (drawdown cs).length := by rw [drawdown_length]; exact hi
  have h2 : i < (cummax cs).length := by rw [cummax_length]; exact hi
  rw [List.getD_eq_getElem _ _ h1, List.getD_eq_getElem _ _ hi,
    List.getD_eq_getElem _ _ h2]
  unfold drawdown
  rw [List.getElem_map, List.getElem_zip]

/-- C9: for a Close series with every value present and strictly positive,
the Drawdown column of `add_indicators` is nonpositive at every row, with
value zero exactly at the rows where Close equals its running maximum. -/
theorem drawdown_nonpos_iff_peak (cs : List ℚ) (hpos : ∀ c ∈ cs, 0 < c)
    (i : ℕ) (hi : i < cs.length) :
    (drawdown cs).getD i 0 ≤ 0 ∧
      ((drawdown cs).getD i 0 = 0 ↔ cs.getD i 0 = (cummax cs).getD i 0) := by
  have hge : cs.getD i 0 ≤ (cummax cs).getD i 0 := cummax_getD_ge cs i hi
  have hc : 0 < cs.getD i 0 := by
    apply hpos
    rw [List.getD_eq_getElem _ _ hi]
    exact List.getElem_mem hi
  have hm : 0 < (cummax cs).getD i 0 := lt_of_lt_of_le hc hge
  rw [drawdown_getD cs i hi]
  constructor
  · exact div_nonpos_iff.mpr (Or.inr ⟨sub_nonpos.mpr hge, le_of_lt hm⟩)
  · rw [div_eq_zero_iff]
    constructor
    · rintro (h | h)
      · exact sub_eq_zero.mp h
      · exact absurd h (ne_of_gt hm)
    · intro h
      exact Or.inl (sub_eq_zero.mpr h)

/-- Witness for C9 at the series 100, 90, 120 and row 1: the drawdown is
nonpositive and vanishes only where Close sits at the running peak. -/
theorem drawdown_nonpos_iff_peak_w :
    (drawdown [100, 90, 120]).getD 1 0 ≤ 0 ∧
      ((drawdown [100, 90, 120]).getD 1 0 = 0 ↔
        ([100, 90, 120] : List ℚ).getD 1 0 = (cummax [100, 90, 120]).getD 1 0) :=
  drawdown_nonpos_iff_peak [100, 90, 120]
    (by intro c hc; fin_cases hc <;> norm_num) 1 (by norm_num)

/-- Embedding of `norm_to_first` (Stock.py): an empty series, or a first
entry that is 0 or missing, yields the all-missing series of the same
length (the source multiplies the series by NaN); otherwise the series is
divided elementwise by its first entry. -/
def norm_to_first : List (Option ℚ) → List (Option ℚ)
  | [] => []
  | none :: t => (none :: t).map (fun _ => none)
  | some v :: t =>
    if v = 0 then (some v :: t).map (fun _ => none)
    else (some v :: t).map (Option.map (fun x => x / v))

/-- Mapping every entry to missing is the all-missing series. -/
theorem map_none_replicate :
    ∀ s : List (Option ℚ),
      s.map (fun _ => (none : Option ℚ)) = List.replicate s.length none := by
  intro s
  induction s with
  | nil => rfl
  | cons v s ih => simp [ih, List.replicate_succ]

/-- C10: `norm_to_first` never divides by zero and is total: on an empty
series, or when the first entry is missing or zero, it returns the
all-missing series of the input length; otherwise it divides by the
(nonzero) first entry, every entry is the input entry divided by the first
entry, and the first output entry is exactly 1. -/
theorem norm_to_first_spec (s : List (Option ℚ)) :
    ((s = [] ∨ s.head? = some none ∨ s.head? = some (some 0)) →
      norm_to_first s = List.replicate s.length none) ∧
    ∀ v : ℚ, v ≠ 0 → s.head? = some (some v) →
      norm_to_first s = s.map (Option.map (fun x => x / v)) ∧
        (norm_to_first s).head? = some (some 1) := by
  constructor
  · intro hdeg
    rcases hdeg with rfl | hh | hh
    · rfl
    · cases s with
      | nil => cases hh
      | cons v0 s =>
        rw [List.head?_cons, Option.some_inj] at hh
        subst hh
        simp only [norm_to_first]
        exact map_none_replicate _
    · cases s with
      | nil => cases hh
      | cons v0 s =>
        rw [List.head?_cons, Option.some_inj] at hh
        subst hh
        simp only [norm_to_first, if_true]
        exact map_none_replicate _
  · intro v hv hh
    cases s with
    | nil => cases hh
    | cons v0 s =>
      rw [List.head?_cons, Option.some_inj] at hh
      subst hh
      simp only [norm_to_first]
      rw [if_neg hv]
      refine ⟨rfl, ?_⟩
      rw [List.map_cons, List.head?_cons, Option.map_some']
      rw [div_self hv]

/-- Witness for C10 on the series 4, 2, missing: the result is the series
divided by 4 and its first entry is 1. -/
theorem norm_to_first_spec_w :
    norm_to_first [some 4, some 2, none] =
        ([some 4, some 2, none] : List (Option ℚ)).map (Option.map (fun x => x / 4)) ∧
      (norm_to_first [some 4, some 2, none]).head? = some (some 1) :=
  (norm_to_first_spec [some 4, some 2, none]).2 4 (by norm_num) rfl

/-- One row of the marks table of trial.py: student name, class label,
subject, and the Marks value after `pd.to_numeric(errors="coerce")`
(missing where the cell is not numeric). -/
structure Mark where
  name : String
  cls : String
  subject : String
  marks : Option ℚ
deriving DecidableEq, Repr

/-- Python int() truncation toward zero, applied by trial.py to the
nanmin/nanmax slider bounds. -/
def pyInt (q : ℚ) : ℤ :=
  if 0 ≤ q then ⌊q⌋ else ⌈q⌉

/-- Truncation is the identity on integer values. -/
theorem pyInt_intCast (z : ℤ) : pyInt ((z : ℤ) : ℚ) = z := by
  unfold pyInt
  split_ifs
  · exact Int.floor_intCast z
  · exact Int.ceil_intCast z

/-- The present Marks values, in row order. -/
def marksVals (rows : List Mark) : List ℚ :=
  rows.filterMap (fun r => r.marks)

/-- Lower slider bound: int cast of the nanmin of Marks, 0 when every mark
is missing. -/
def minMark (rows : List Mark) : ℤ :=
  match marksVals rows with
  | [] => 0
  | v :: vs => pyInt (vs.foldl min v)

/-- Upper slider bound: int cast of the nanmax of Marks, 100 when every
mark is missing. -/
def maxMark (rows : List Mark) : ℤ :=
  match marksVals rows with
  | [] => 100
  | v :: vs => pyInt (vs.foldl max v)

/-- Distinct subject names in ascending order: the multiselect options and
the groupby keys. -/
def subjectsOf (rows : List Mark) : List String :=
  List.insertionSort (fun a b => a ≤ b) ((rows.map (fun r => r.subject)).dedup)

/-- The widest-selection filter mask of trial.py: Marks inclusively between
the integer slider bounds, subject among the full default multiselect, and
the class selector left at All (hence no class conjunct); a missing mark
fails the between test. -/
def widestMask (rows : List Mark) (r : Mark) : Bool :=
  (match r.marks with
    | some v =>
      decide (((minMark rows : ℤ) : ℚ) ≤ v) && decide (v ≤ ((maxMark rows : ℤ) : ℚ))
    | none => false) &&
  (subjectsOf rows).contains r.subject

/-- The filtered frame under the widest selection. -/
def widestFilter (rows : List Mark) : List Mark :=
  rows.filter (widestMask rows)

/-- Comparator used by the descending sort on mean marks. -/
def meanGe (p q : String × ℚ) : Prop := q.2 ≤ p.2

instance : DecidableRel meanGe :=
  fun p q => inferInstanceAs (Decidable (q.2 ≤ p.2))

/-- Embedding of `avg_by_subj`: the mean of the present Marks per subject
key, sorted by mean descending for the bar chart. -/
def avgBySubj (rows : List Mark) : List (String × ℚ) :=
  List.insertionSort meanGe
    ((subjectsOf rows).map (fun s =>
      (s, meanQ ((rows.filter (fun r => r.subject == s)).filterMap (fun r => r.marks)))))

/-- Every element of the start-and-list dominates the running minimum. -/
theorem foldl_min_le :
    ∀ (vs : List ℚ) (v x : ℚ), x ∈ v :: vs → vs.foldl min v ≤ x := by
  intro vs
  induction vs with
  | nil =>
    intro v x hx
    rw [List.mem_singleton] at hx
    exact le_of_eq hx.symm
  | cons w vs ih =>
    intro v x hx
    rw [List.foldl_cons]
    rcases List.mem_cons.mp hx with hxv | hx2
    · exact le_trans (ih (min v w) _ (by simp)) (le_trans (min_le_left v w) (le_of_eq hxv.symm))
    · rcases List.mem_cons.mp hx2 with hxw | hx3
      · exact le_trans (ih (min v w) _ (by simp)) (le_trans (min_le_right v w) (le_of_eq hxw.symm))
      · exact ih (min v w) x (List.mem_cons_of_mem _ hx3)

/-- The running minimum is one of the values it ranges over. -/
theorem foldl_min_mem : ∀ (vs : List ℚ) (v : ℚ), vs.foldl min v ∈ v :: vs := by
  intro vs
  induction vs with
  | nil => intro v; simp
  | cons w vs ih =>
    intro v
    rw [List.foldl_cons]
    rcases List.mem_cons.mp (ih (min v w)) with hm | hm
    · rcases min_choice v w with hc | hc
      · rw [hm, hc]; simp
      · rw [hm, hc]; simp
    · exact List.mem_cons_of_mem _ (List.mem_cons_of_mem _ hm)

/-- C4 amended: for a table whose Marks are all present and integer valued,
the widest slider selection keeps every row (the truncated bounds coincide
with the true minimum and maximum), so the per-subject mean aggregate of
the filtered frame is exactly that of the unfiltered frame. -/
theorem widest_filter_roundtrip_int (rows : List Mark)
    (hint : ∀ r ∈ rows, ∃ z : ℤ, r.marks = some ((z : ℤ) : ℚ)) :
    widestFilter rows = rows ∧ avgBySubj (widestFilter rows) = avgBySubj rows := by
  have hai : ∀ x ∈ marksVals rows, ∃ z : ℤ, x = ((z : ℤ) : ℚ) := by
    intro x hx
    obtain ⟨r2, hr2, hx2⟩ := List.mem_filterMap.mp hx
    obtain ⟨z2, hz2⟩ := hint r2 hr2
    rw [hz2] at hx2
    exact ⟨z2, (Option.some_inj.mp hx2).symm⟩
  have hfil : widestFilter rows = rows := by
    unfold widestFilter
    rw [List.filter_eq_self]
    intro r hr
    obtain ⟨z, hz⟩ := hint r hr
    have hvmem : ((z : ℤ) : ℚ) ∈ marksVals rows :=
      List.mem_filterMap.mpr ⟨r, hr, by rw [hz]⟩
    unfold widestMask
    rw [hz]
    rw [Bool.and_eq_true, Bool.and_eq_true]
    refine ⟨⟨?_, ?_⟩, ?_⟩
    · rw [decide_eq_true_eq]
      cases hmv : marksVals rows with
      | nil => rw [hmv] at hvmem; cases hvmem
      | cons v0 vs =>
        have hmin_eq : minMark rows = pyInt (vs.foldl min v0) := by
          unfold minMark
          rw [hmv]
        obtain ⟨zm, hzm⟩ := hai _ (by rw [hmv]; exact foldl_min_mem vs v0)
        rw [hmin_eq, hzm, pyInt_intCast, ← hzm]
        rw [hmv] at hvmem
        exact foldl_min_le vs v0 _ hvmem
    · rw [decide_eq_true_eq]
      cases hmv : marksVals rows with
      | nil => rw [hmv] at hvmem; cases hvmem
      | cons v0 vs =>
        have hmax_eq : maxMark rows = pyInt (vs.foldl max v0) := by
          unfold maxMark
          rw [hmv]
        obtain ⟨zm, hzm⟩ := hai _ (by rw [hmv]; exact foldl_max_mem vs v0)
        rw [hmax_eq, hzm, pyInt_intCast, ← hzm]
        rw [hmv] at hvmem
        exact le_foldl_max vs v0 _ hvmem
    · rw [List.contains_eq_any_beq, List.any_eq_true]
      refine ⟨r.subject, ?_, by simp⟩
      have hsub : r.subject ∈ (rows.map (fun r => r.subject)).dedup :=
        List.mem_dedup.mpr (List.mem_map.mpr ⟨r, hr, rfl⟩)
      exact ((List.perm_insertionSort (fun a b => a ≤ b) _).mem_iff).mpr hsub
  exact ⟨hfil, by rw [hfil]⟩

/-- The demo table fragment used as witness input: all marks present and
integral. -/
def demoRows : List Mark :=
  [⟨"Aarav", "c10A", "Maths", some 88⟩, ⟨"Isha", "c10A", "Science", some 71⟩]

/-- Witness for the C4 amended theorem: on an all-integer table the widest
selection keeps every row. -/
theorem widest_filter_roundtrip_int_w : widestFilter demoRows = demoRows :=
  (widest_filter_roundtrip_int demoRows (by
    intro r hr
    fin_cases hr
    · exact ⟨88, by norm_num⟩
    · exact ⟨71, by norm_num⟩)).1

/-- A table with a single half-integer mark 99.5. -/
def halfRows : List Mark := [⟨"Ann", "c10A", "Math", some (199 / 2)⟩]

/-- C4 counterexample: with the single mark 99.5, the slider bounds truncate
to 99, the only row fails the inclusive range test, and the filtered
aggregate (empty) differs from the unfiltered aggregate. -/
theorem widest_filter_roundtrip_cex :
    avgBySubj (widestFilter halfRows) ≠ avgBySubj halfRows := by
  have hmax : maxMark halfRows = 99 := by
    show pyInt (199 / 2) = 99
    unfold pyInt
    rw [if_pos (by norm_num)]
    norm_num
  have hv : decide ((199 : ℚ) / 2 ≤ ((99 : ℤ) : ℚ)) = false := by
    rw [decide_eq_false_iff_not]
    norm_num
  have hmask : widestMask halfRows ⟨"Ann", "c10A", "Math", some (199 / 2)⟩ = false := by
    show ((decide (((minMark halfRows : ℤ) : ℚ) ≤ 199 / 2) &&
        decide ((199 : ℚ) / 2 ≤ ((maxMark halfRows : ℤ) : ℚ))) &&
      (subjectsOf halfRows).contains ("Math")) = false
    rw [hmax, hv]
    simp
  have h1 : widestFilter halfRows = [] := by
    unfold widestFilter
    show List.filter (widestMask halfRows) [⟨"Ann", "c10A", "Math", some (199 / 2)⟩] = []
    rw [List.filter_cons, hmask]
    simp
  rw [h1]
  intro hc
  have h2 : (avgBySubj ([] : List Mark)).length = 0 := rfl
  have h3 : (avgBySubj halfRows).length = 1 := rfl
  rw [← hc] at h3
  exact absurd (h2.symm.trans h3) (by norm_num)
